import Mathlib

/-!
Verification of the `deletedups` duplicate-file remover.

The program scans a "keep" tree and a "clean" tree, groups regular files by
byte size (`scanSizes`), disambiguates size collisions by content hash
(`scanHashes`), and deletes clean-tree files whose size and hash match a
keep-tree file (`main`).  This file gives a shallow embedding of those three
functions and proves the specification claims about them.

The filesystem is modelled as a tree of nodes (`FSNode`); file contents are
abstracted by a hashing oracle `hf : String → Option String` mapping a path to
its hex digest, with `none` standing for an open/read failure.  `filepath.Walk`
from the Go standard library is embedded faithfully (`walkFS`/`walkChildren`/
`goWalk`), specialised to the callback that `scanSizes` installs, whose only
possible return values are `nil` and `filepath.SkipDir`.
-/

set_option autoImplicit false

namespace DeletedDups

/-! ### Go string helpers

`strings.ToLower`, `strings.HasSuffix` and `strings.Split(s, ",")` as used by
`main` and `scanSizes`, embedded structurally over the character list of a
`String`.  In particular `goSplitComma "" = [""]`, exactly as Go's
`strings.Split("", ",")` returns a one-element slice holding the empty string.
-/

/-- `strings.ToLower`, character by character. -/
def goToLower (s : String) : String :=
  String.mk (s.data.map Char.toLower)

/-- Does the character list `s` start with the character list `pat`? -/
def startsWithList : List Char → List Char → Bool
  | _, [] => true
  | [], _ :: _ => false
  | c :: cs, d :: ds => c = d && startsWithList cs ds

/-- `strings.HasSuffix s t`: `t` is a suffix of `s`. -/
def goHasSuffix (s t : String) : Bool :=
  startsWithList s.data.reverse t.data.reverse

/-- Split a character list around each comma.  The empty list yields `[[]]`. -/
def splitCommaChars : List Char → List (List Char)
  | [] => [[]]
  | c :: rest =>
    match splitCommaChars rest, decide (c = ',') with
    | r, true => [] :: r
    | [], false => [[c]]
    | h :: t, false => (c :: h) :: t

/-- `strings.Split(s, ",")`: split around each comma; `"" ↦ [""]`. -/
def goSplitComma (s : String) : List String :=
  (splitCommaChars s.data).map String.mk

/-- The suffix list `main` builds from the `-extensions` flag:
`strings.Split(strings.ToLower(extensions), ",")`. -/
def mainSuffixes (extensions : String) : List String :=
  goSplitComma (goToLower extensions)

/-! ### File modes

The `os.FileMode` type-bit constants, as `Nat` bit masks (`FileMode` is a
`uint32` in Go).  `goModeType` is `os.ModeType`, the union of all bits that
mark a file as something other than a regular file. -/

def goModeDir : Nat := 2 ^ 31
def goModeSymlink : Nat := 2 ^ 27
def goModeDevice : Nat := 2 ^ 26
def goModeNamedPipe : Nat := 2 ^ 25
def goModeSocket : Nat := 2 ^ 24
def goModeCharDevice : Nat := 2 ^ 21
def goModeIrregular : Nat := 2 ^ 19

/-- `os.ModeType = ModeDir | ModeSymlink | ModeNamedPipe | ModeSocket |
ModeDevice | ModeCharDevice | ModeIrregular`. -/
def goModeType : Nat :=
  goModeDir ||| goModeSymlink ||| goModeNamedPipe ||| goModeSocket |||
    goModeDevice ||| goModeCharDevice ||| goModeIrregular

/-- The part of an `os.FileInfo` that `scanSizes` reads: `Mode()` and
`Size()`. -/
structure GoFileInfo where
  mode : Nat
  size : Nat

/-! ### The size map

`map[int][]string` built by `names[size] = append(names[size], path)`,
embedded as an insertion-ordered association list. -/

/-- The `map[int][]string` of `scanSizes`. -/
abbrev SizeMap := List (Nat × List String)

/-- `names[size] = append(names[size], path)`. -/
def insertSize (m : SizeMap) (sz : Nat) (p : String) : SizeMap :=
  match m with
  | [] => [(sz, [p])]
  | (s, l) :: rest =>
    if s = sz then (s, l ++ [p]) :: rest else (s, l) :: insertSize rest sz p

/-- Map lookup: `names[size]` together with the `exists` flag. -/
def lookupSize : SizeMap → Nat → Option (List String)
  | [], _ => none
  | (s, l) :: rest, sz => if s = sz then some l else lookupSize rest sz

/-- The bucket of paths recorded for size `s` (empty when absent). -/
def sizeMapPaths (m : SizeMap) (s : Nat) : List String :=
  (lookupSize m s).getD []

/-- Does the path `p` occur in any bucket of `m`? -/
def sizeMapMember (m : SizeMap) (p : String) : Bool :=
  m.any fun e => decide (p ∈ e.2)

/-! ### The filesystem model and `filepath.Walk`

A node is a regular-or-special file (with its mode bits and size), a
directory (whose entry listing may fail to read, modelling a `readDirNames`
error such as permission denied), or an entry on which `lstat` itself fails.
The root may also be altogether absent (`none` below), modelling a root path
that does not exist. -/

inductive FSNode where
  | file (name : String) (mode : Nat) (size : Nat)
  | dir (name : String) (readable : Bool) (entries : List FSNode)
  | broken (name : String)

/-- The only non-`nil` error value the `scanSizes` walk callback ever
returns: `filepath.SkipDir`. -/
inductive WalkErr where
  | skipDir
deriving DecidableEq

/-- The walk callback that `scanSizes` installs (the closure over `names`):
on a traversal error return `filepath.SkipDir`; skip entries whose mode has a
type bit set; apply the extension filter; otherwise record the path under its
size.  The state `names` is threaded explicitly. -/
def sizesWalkFn (suffixes : List String) (names : SizeMap) (path : String)
    (info : Option GoFileInfo) (inerr : Bool) : SizeMap × Option WalkErr :=
  if inerr then
    (names, some WalkErr.skipDir)
  else
    match info with
    | none => (names, none)
    | some i =>
      if i.mode &&& goModeType ≠ 0 then
        (names, none)
      else if 0 < suffixes.length ∧
          (suffixes.any fun ext => goHasSuffix (goToLower path) ("." ++ ext)) = false then
        (names, none)
      else
        (insertSize names i.size path, none)

mutual
/-- `filepath.walk(path, info, walkFn)` specialised to the `scanSizes`
callback: visit a non-directory directly; for a directory, report a
`readDirNames` failure to the callback and return its answer, otherwise visit
the directory itself and then its children. -/
def walkFS (sfx : List String) (names : SizeMap) (path : String) :
    FSNode → SizeMap × Option WalkErr
  | FSNode.file _ mode size =>
    sizesWalkFn sfx names path (some { mode := mode, size := size }) false
  | FSNode.dir _ readable entries =>
    if readable then
      match sizesWalkFn sfx names path (some { mode := goModeDir, size := 0 }) false with
      | (names1, some e1) => (names1, some e1)
      | (names1, none) => walkChildren sfx names1 path entries
    else
      sizesWalkFn sfx names path (some { mode := goModeDir, size := 0 }) true
  | FSNode.broken _ => (names, none)

/-- The child loop of `filepath.walk`: `lstat` each entry; on an `lstat`
error hand the error to the callback and continue unless it returns a real
error; otherwise recurse, swallowing `SkipDir` from a directory child and
propagating any error from a non-directory child. -/
def walkChildren (sfx : List String) (names : SizeMap) (dirPath : String) :
    List FSNode → SizeMap × Option WalkErr
  | [] => (names, none)
  | FSNode.broken nm :: rest =>
    match sizesWalkFn sfx names (dirPath ++ "/" ++ nm) none true with
    | (names1, some WalkErr.skipDir) => walkChildren sfx names1 dirPath rest
    | (names1, none) => walkChildren sfx names1 dirPath rest
  | FSNode.file nm mode size :: rest =>
    match walkFS sfx names (dirPath ++ "/" ++ nm) (FSNode.file nm mode size) with
    | (names1, none) => walkChildren sfx names1 dirPath rest
    | (names1, some e1) => (names1, some e1)
  | FSNode.dir nm rd es :: rest =>
    match walkFS sfx names (dirPath ++ "/" ++ nm) (FSNode.dir nm rd es) with
    | (names1, none) => walkChildren sfx names1 dirPath rest
    | (names1, some _) => walkChildren sfx names1 dirPath rest
end

/-- The body of `filepath.Walk(root, fn)` before its final `SkipDir`
normalisation: `lstat` the root, hand an `lstat` failure to the callback,
otherwise walk the root node. -/
def goWalkRaw (sfx : List String) (root : String) (fs : Option FSNode) :
    SizeMap × Option WalkErr :=
  match fs with
  | none => sizesWalkFn sfx [] root none true
  | some (FSNode.broken _) => sizesWalkFn sfx [] root none true
  | some (FSNode.file nm mode size) => walkFS sfx [] root (FSNode.file nm mode size)
  | some (FSNode.dir nm rd es) => walkFS sfx [] root (FSNode.dir nm rd es)

/-- `filepath.Walk(root, fn)`: as `goWalkRaw`, but a `SkipDir` result is
converted to a `nil` error. -/
def goWalk (sfx : List String) (root : String) (fs : Option FSNode) :
    SizeMap × Option WalkErr :=
  match goWalkRaw sfx root fs with
  | (names, some WalkErr.skipDir) => (names, none)
  | (names, none) => (names, none)

/-- `scanSizes(root, suffixes)`: run the walk; on a non-`nil` walk error
return `(nil, err)`, otherwise the collected size map. -/
def scanSizes (root : String) (suffixes : List String) (fs : Option FSNode) :
    Option SizeMap × Option WalkErr :=
  match goWalk suffixes root fs with
  | (_, some e) => (none, some e)
  | (names, none) => (some names, none)

/-! ### The hash map and `scanHashes`

`map[string]string` built by `files[sum] = path`, embedded as an association
list whose insertion replaces an existing binding in place.  File contents are
abstracted by a hashing oracle `hf : String → Option String`: `hf p` is the
hex digest of the file at `p`, and `none` models an `os.Open` or `io.Copy`
failure for that file. -/

/-- Go map assignment `m[k] = v`: replace an existing binding, else append. -/
def mapInsert (m : List (String × String)) (k v : String) :
    List (String × String) :=
  match m with
  | [] => [(k, v)]
  | (k1, v1) :: rest =>
    if k1 = k then (k, v) :: rest else (k1, v1) :: mapInsert rest k v

/-- Go map lookup `m[k]` with its `exists` flag. -/
def mapLookup : List (String × String) → String → Option String
  | [], _ => none
  | (k1, v1) :: rest, k => if k1 = k then some v1 else mapLookup rest k

/-- The keys of the map, in insertion order. -/
def mapKeys (m : List (String × String)) : List String :=
  m.map Prod.fst

/-- The loop of `scanHashes`: hash each path in order, skipping the ones that
fail to open or read, and store `files[sum] = path`. -/
def scanHashesMap (hf : String → Option String) (paths : List String) :
    List (String × String) :=
  paths.foldl
    (fun files path =>
      match hf path with
      | none => files
      | some sum => mapInsert files sum path)
    []

/-- `scanHashes(paths)`: the best-effort digest map, and the error value of
its single `return files, nil` statement. -/
def scanHashes (hf : String → Option String) (paths : List String) :
    List (String × String) × Option Unit :=
  (scanHashesMap hf paths, none)

/-! ### The orchestrator (`main`'s matching loop)

`main` iterates over the keep-side size map; for each size also present on
the clean side it hashes both path lists and, for each digest present in both
hash maps, reports the pair in dry-run mode or deletes the clean path in live
mode, accumulating the duplicate file count and byte total. -/

/-- One observable act of the matching loop: a dry-run report line or a
deletion (`os.Remove`) of a clean-tree path, each carrying the matching
keep-tree path. -/
inductive Action where
  | report (keeppath cleanpath : String)
  | delete (keeppath cleanpath : String)
deriving DecidableEq

/-- One iteration of `main`'s loop over `keeperSizes`, with the two
`os.Exit(1)` error checks after the `scanHashes` calls kept in place.  The
accumulator is `(actions so far, filecount, bytecount)`. -/
def mainBucketStep (hf : String → Option String) (dry : Bool)
    (cleanerSizes : SizeMap) (acc : List Action × Nat × Nat)
    (sn : Nat × List String) : Except Nat (List Action × Nat × Nat) :=
  match lookupSize cleanerSizes sn.1 with
  | none => Except.ok acc
  | some cleanerNames =>
    match scanHashes hf sn.2 with
    | (_, some _) => Except.error 1
    | (keepers, none) =>
      match scanHashes hf cleanerNames with
      | (_, some _) => Except.error 1
      | (cleaners, none) =>
        Except.ok (keepers.foldl
          (fun acc2 kv =>
            match mapLookup cleaners kv.1 with
            | none => acc2
            | some cleanpath =>
              if dry then
                (acc2.1 ++ [Action.report kv.2 cleanpath], acc2.2.1 + 1, acc2.2.2 + sn.1)
              else
                (acc2.1 ++ [Action.delete kv.2 cleanpath], acc2.2.1 + 1, acc2.2.2 + sn.1))
          acc)

/-- The `for size, keeperNames := range keeperSizes` loop of `main`: an
`os.Exit(1)` branch (modelled by `Except.error`) stops the whole run. -/
def runMainAux (hf : String → Option String) (dry : Bool)
    (cleanerSizes : SizeMap) :
    List (Nat × List String) → List Action × Nat × Nat →
    Except Nat (List Action × Nat × Nat)
  | [], acc => Except.ok acc
  | sn :: rest, acc =>
    match mainBucketStep hf dry cleanerSizes acc sn with
    | Except.error e => Except.error e
    | Except.ok acc1 => runMainAux hf dry cleanerSizes rest acc1

/-- `main`'s matching loop over the two size maps: the actions performed, the
duplicate file count and the duplicate byte total, or the exit code if one of
the dead-in-practice error branches fired. -/
def runMain (hf : String → Option String) (dry : Bool)
    (keeperSizes cleanerSizes : SizeMap) :
    Except Nat (List Action × Nat × Nat) :=
  runMainAux hf dry cleanerSizes keeperSizes ([], 0, 0)

/-- The error-free loop body: `mainBucketStep` with its two unreachable
`Except.error` branches removed (see `mainBucketStep_ok`). -/
def bucketLoop (hf : String → Option String) (dry : Bool)
    (cleanerSizes : SizeMap) (acc : List Action × Nat × Nat)
    (sn : Nat × List String) : List Action × Nat × Nat :=
  match lookupSize cleanerSizes sn.1 with
  | none => acc
  | some cleanerNames =>
    (scanHashesMap hf sn.2).foldl
      (fun acc2 kv =>
        match mapLookup (scanHashesMap hf cleanerNames) kv.1 with
        | none => acc2
        | some cleanpath =>
          if dry then
            (acc2.1 ++ [Action.report kv.2 cleanpath], acc2.2.1 + 1, acc2.2.2 + sn.1)
          else
            (acc2.1 ++ [Action.delete kv.2 cleanpath], acc2.2.1 + 1, acc2.2.2 + sn.1))
      acc

/-- The matching loop never exits early; `runLoop` is its value
(see `runMain_eq_runLoop`). -/
def runLoop (hf : String → Option String) (dry : Bool)
    (keeperSizes cleanerSizes : SizeMap) : List Action × Nat × Nat :=
  keeperSizes.foldl (bucketLoop hf dry cleanerSizes) ([], 0, 0)

/-- The list of actions a run performs (empty in the unreachable error
case). -/
def runActs (hf : String → Option String) (dry : Bool)
    (keeperSizes cleanerSizes : SizeMap) : List Action :=
  match runMain hf dry keeperSizes cleanerSizes with
  | Except.ok out => out.1
  | Except.error _ => []

/-- The `(keeppath, cleanpath)` pairs reported by dry-run log lines. -/
def reportedPairs (acts : List Action) : List (String × String) :=
  acts.filterMap fun a =>
    match a with
    | Action.report k c => some (k, c)
    | Action.delete _ _ => none

/-- The `(keeppath, cleanpath)` pairs whose clean path is deleted. -/
def deletedPairs (acts : List Action) : List (String × String) :=
  acts.filterMap fun a =>
    match a with
    | Action.delete k c => some (k, c)
    | Action.report _ _ => none

/-- The pair carried by an action, forgetting whether it was a report or a
deletion. -/
def actionPair : Action → String × String
  | Action.report k c => (k, c)
  | Action.delete k c => (k, c)

/-- Turn a deletion into the report line the same pair would produce in
dry-run mode. -/
def reportOf : Action → Action
  | Action.delete k c => Action.report k c
  | Action.report k c => Action.report k c

/-- Soundness of every deletion a run performs: it only happens in live mode,
and the deleted path is a clean-tree path that shares a size bucket and a
content digest with the matching keep-tree path. -/
def deleteSound (hf : String → Option String) (dry : Bool)
    (ks cs : SizeMap) (acts : List Action) : Prop :=
  ∀ kp cp, Action.delete kp cp ∈ acts →
    dry = false ∧
    ∃ sz kl cl d, (sz, kl) ∈ ks ∧ (sz, cl) ∈ cs ∧ kp ∈ kl ∧ cp ∈ cl ∧
      hf kp = some d ∧ hf cp = some d

/-! ### Basic lemmas -/

/-- A `foldl` invariant principle. -/
theorem foldl_invariant {α β : Type} {P : β → Prop} (f : β → α → β) :
    ∀ (l : List α) (b : β), P b →
      (∀ b1 a, a ∈ l → P b1 → P (f b1 a)) → P (l.foldl f b) := by
  intro l
  induction l with
  | nil => intro b hb _; exact hb
  | cons a rest ih =>
    intro b hb hstep
    exact ih (f b a) (hstep b a (List.mem_cons_self a rest) hb)
      fun b1 x hx => hstep b1 x (List.mem_cons_of_mem a hx)

theorem mapInsert_mem {m : List (String × String)} {k v kk vv : String}
    (h : (k, v) ∈ mapInsert m kk vv) : (k = kk ∧ v = vv) ∨ (k, v) ∈ m := by
  induction m with
  | nil =>
    simp only [mapInsert, List.mem_singleton] at h
    exact Or.inl ⟨congrArg Prod.fst h, congrArg Prod.snd h⟩
  | cons hd rest ih =>
    obtain ⟨k1, v1⟩ := hd
    simp only [mapInsert] at h
    by_cases hk : k1 = kk
    · rw [if_pos hk] at h
      rcases List.mem_cons.1 h with h1 | h1
      · exact Or.inl ⟨congrArg Prod.fst h1, congrArg Prod.snd h1⟩
      · exact Or.inr (List.mem_cons_of_mem _ h1)
    · rw [if_neg hk] at h
      rcases List.mem_cons.1 h with h1 | h1
      · exact Or.inr (List.mem_cons.2 (Or.inl h1))
      · rcases ih h1 with h2 | h2
        · exact Or.inl h2
        · exact Or.inr (List.mem_cons_of_mem _ h2)

theorem mapLookup_mem {m : List (String × String)} {k v : String}
    (h : mapLookup m k = some v) : (k, v) ∈ m := by
  induction m with
  | nil => simp [mapLookup] at h
  | cons hd rest ih =>
    obtain ⟨k1, v1⟩ := hd
    simp only [mapLookup] at h
    by_cases hk : k1 = k
    · rw [if_pos hk] at h
      subst hk
      exact List.mem_cons.2 (Or.inl (by simpa using congrArg (Prod.mk k1) h.symm))
    · rw [if_neg hk] at h
      exact List.mem_cons_of_mem _ (ih h)

/-- Every entry of the `scanHashes` map is a successfully hashed input path
bound to its own digest. -/
theorem scanHashesMap_mem {hf : String → Option String} {ps : List String}
    {k v : String} (h : (k, v) ∈ scanHashesMap hf ps) :
    hf v = some k ∧ v ∈ ps := by
  have main : ∀ (l : List String) (m : List (String × String)),
      (k, v) ∈ l.foldl
        (fun files path =>
          match hf path with
          | none => files
          | some sum => mapInsert files sum path) m →
      (k, v) ∈ m ∨ (hf v = some k ∧ v ∈ l) := by
    intro l
    induction l with
    | nil => intro m hm; exact Or.inl hm
    | cons p rest ih =>
      intro m hm
      simp only [List.foldl_cons] at hm
      rcases hhf : hf p with _ | sum
      · rw [hhf] at hm
        rcases ih m hm with h1 | h1
        · exact Or.inl h1
        · exact Or.inr ⟨h1.1, List.mem_cons_of_mem _ h1.2⟩
      · rw [hhf] at hm
        rcases ih (mapInsert m sum p) hm with h1 | h1
        · rcases mapInsert_mem h1 with h2 | h2
          · refine Or.inr ⟨?_, List.mem_cons.2 (Or.inl h2.2)⟩
            rw [h2.2, hhf, h2.1]
          · exact Or.inl h2
        · exact Or.inr ⟨h1.1, List.mem_cons_of_mem _ h1.2⟩
  rcases main ps [] h with h1 | h1
  · simp at h1
  · exact h1

theorem lookupSize_mem {m : SizeMap} {sz : Nat} {l : List String}
    (h : lookupSize m sz = some l) : (sz, l) ∈ m := by
  induction m with
  | nil => simp [lookupSize] at h
  | cons hd rest ih =>
    obtain ⟨s1, l1⟩ := hd
    simp only [lookupSize] at h
    by_cases hs : s1 = sz
    · rw [if_pos hs] at h
      subst hs
      exact List.mem_cons.2 (Or.inl (by simpa using congrArg (Prod.mk s1) h.symm))
    · rw [if_neg hs] at h
      exact List.mem_cons_of_mem _ (ih h)

theorem sizeMapMember_of_mem {m : SizeMap} {sz : Nat} {l : List String}
    {p : String} (hm : (sz, l) ∈ m) (hp : p ∈ l) :
    sizeMapMember m p = true := by
  unfold sizeMapMember
  exact List.any_eq_true.2 ⟨(sz, l), hm, by simpa using hp⟩

/-- The two dead error branches of the loop body: its value is always
`Except.ok` of the error-free loop body. -/
theorem mainBucketStep_ok (hf : String → Option String) (dry : Bool)
    (cs : SizeMap) (acc : List Action × Nat × Nat) (sn : Nat × List String) :
    mainBucketStep hf dry cs acc sn = Except.ok (bucketLoop hf dry cs acc sn) := by
  unfold mainBucketStep bucketLoop
  rcases h : lookupSize cs sn.1 with _ | cleanerNames <;> simp [h, scanHashes]

/-- The matching loop never takes an `os.Exit(1)` branch. -/
theorem runMain_eq_runLoop (hf : String → Option String) (dry : Bool)
    (ks cs : SizeMap) :
    runMain hf dry ks cs = Except.ok (runLoop hf dry ks cs) := by
  have main : ∀ (l : List (Nat × List String)) (acc : List Action × Nat × Nat),
      runMainAux hf dry cs l acc = Except.ok (l.foldl (bucketLoop hf dry cs) acc) := by
    intro l
    induction l with
    | nil => intro acc; rfl
    | cons sn rest ih =>
      intro acc
      simp only [runMainAux, mainBucketStep_ok, List.foldl_cons]
      exact ih (bucketLoop hf dry cs acc sn)
  exact main ks ([], 0, 0)

/-! ### Last-seen-wins characterisation of the hash map -/

theorem mapLookup_insert (m : List (String × String)) (kk vv k : String) :
    mapLookup (mapInsert m kk vv) k =
      if kk = k then some vv else mapLookup m k := by
  induction m with
  | nil => simp [mapInsert, mapLookup]
  | cons hd rest ih =>
    obtain ⟨k1, v1⟩ := hd
    by_cases h1 : k1 = kk
    · subst h1
      by_cases h2 : k1 = k <;> simp [mapInsert, mapLookup, h2]
    · by_cases h2 : k1 = k
      · subst h2
        have : ¬kk = k1 := fun h => h1 h.symm
        simp [mapInsert, mapLookup, h1, this]
      · simp [mapInsert, mapLookup, h1, h2, ih]

/-- The last path of the input sequence that hashes to digest `d`. -/
def lastHash (hf : String → Option String) : List String → String → Option String
  | [], _ => none
  | p :: rest, d =>
    match lastHash hf rest d with
    | some q => some q
    | none => if hf p = some d then some p else none

theorem scanHashesMap_lookup (hf : String → Option String)
    (ps : List String) (d : String) :
    mapLookup (scanHashesMap hf ps) d = lastHash hf ps d := by
  have main : ∀ (l : List String) (m : List (String × String)),
      mapLookup
        (l.foldl
          (fun files path =>
            match hf path with
            | none => files
            | some sum => mapInsert files sum path) m) d =
      match lastHash hf l d with
      | some q => some q
      | none => mapLookup m d := by
    intro l
    induction l with
    | nil => intro m; rfl
    | cons p rest ih =>
      intro m
      simp only [List.foldl_cons, lastHash]
      rw [ih]
      rcases hl : lastHash hf rest d with _ | q
      · rcases hp : hf p with _ | sum
        · simp
        · by_cases hs : sum = d
          · subst hs; simp [mapLookup_insert]
          · simp [mapLookup_insert, hs]
      · rcases hp : hf p with _ | sum <;> simp
  have h := main ps []
  rcases hl : lastHash hf ps d with _ | q <;> rw [hl] at h <;>
    simpa [mapLookup] using h

theorem getLast?_cons_eq {α : Type} (l : List α) (a : α) :
    (a :: l).getLast? =
      match l.getLast? with
      | some q => some q
      | none => some a := by
  induction l generalizing a with
  | nil => rfl
  | cons b t ih =>
    rw [List.getLast?_cons_cons]
    rcases h : (b :: t).getLast? with _ | q
    · rw [ih b] at h
      rcases h2 : t.getLast? with _ | q1 <;> rw [h2] at h <;> simp at h
    · rfl

theorem lastHash_eq_filter (hf : String → Option String) (d : String) :
    ∀ ps, lastHash hf ps d =
      (ps.filter fun p => decide (hf p = some d)).getLast? := by
  intro ps
  induction ps with
  | nil => rfl
  | cons p rest ih =>
    simp only [lastHash, List.filter_cons]
    by_cases hp : hf p = some d
    · have hd : decide (hf p = some d) = true := by simp [hp]
      rw [hd, if_pos rfl, getLast?_cons_eq, ih]
      rcases h2 : (rest.filter fun q => decide (hf q = some d)).getLast? with _ | q <;>
        simp [hp]
    · have hd : decide (hf p = some d) = false := by simp [hp]
      rw [hd, if_neg Bool.false_ne_true, ih]
      rcases h2 : (rest.filter fun q => decide (hf q = some d)).getLast? with _ | q <;>
        simp [hp]

theorem mapKeys_insert (m : List (String × String)) (k v : String) :
    mapKeys (mapInsert m k v) =
      if k ∈ mapKeys m then mapKeys m else mapKeys m ++ [k] := by
  induction m with
  | nil => simp [mapInsert, mapKeys]
  | cons hd rest ih =>
    obtain ⟨k1, v1⟩ := hd
    by_cases h1 : k1 = k
    · subst h1
      simp [mapInsert, mapKeys]
    · have h2 : ¬k = k1 := fun h => h1 h.symm
      simp only [mapInsert, if_neg h1, mapKeys, List.map_cons] at ih ⊢
      rw [ih]
      by_cases h3 : k ∈ List.map Prod.fst rest
      · simp [h2, h3]
      · simp [h2, h3]

theorem mapKeys_insert_nodup {m : List (String × String)} {k v : String}
    (h : (mapKeys m).Nodup) : (mapKeys (mapInsert m k v)).Nodup := by
  rw [mapKeys_insert]
  by_cases hk : k ∈ mapKeys m
  · rwa [if_pos hk]
  · rw [if_neg hk]
    refine List.Nodup.append h (List.nodup_singleton k) ?_
    intro a ha hb
    rw [List.mem_singleton] at hb
    subst hb
    exact hk ha

theorem scanHashesMap_keys_nodup (hf : String → Option String)
    (ps : List String) : (mapKeys (scanHashesMap hf ps)).Nodup := by
  unfold scanHashesMap
  refine foldl_invariant (P := fun m => (mapKeys m).Nodup) _ ps [] (by simp [mapKeys]) ?_
  intro m p _ hm
  rcases hp : hf p with _ | sum
  · simpa [hp] using hm
  · simpa [hp] using mapKeys_insert_nodup hm

/-! ### Claim theorems (hash disambiguator and orchestrator) -/

/-- C5: for every ordered input path list, the digest map retains, for each
digest, exactly the last input path that produced it (later paths overwrite
earlier ones), and the map binds each distinct digest to exactly one path
(its keys are pairwise distinct). -/
theorem hash_c5_last_wins : ∀ (hf : String → Option String)
    (ps : List String) (d : String),
    mapLookup (scanHashesMap hf ps) d =
      (ps.filter fun p => decide (hf p = some d)).getLast? ∧
    (mapKeys (scanHashesMap hf ps)).Nodup := by
  intro hf ps d
  exact ⟨(scanHashesMap_lookup hf ps d).trans (lastHash_eq_filter hf d ps),
    scanHashesMap_keys_nodup hf ps⟩

/-- C6: `scanHashes` never propagates an error: a path whose open or read
fails (`hf p = none`) contributes nothing — the run on the list with `p`
present equals the run on the list with `p` removed, so the rest of the batch
is still processed — and the returned error value is always `nil`. -/
theorem hash_c6_skip_unreadable (hf : String → Option String)
    (xs ys : List String) (p : String) (h : hf p = none) :
    scanHashes hf (xs ++ p :: ys) = scanHashes hf (xs ++ ys) ∧
    (scanHashes hf (xs ++ p :: ys)).2 = none := by
  refine ⟨?_, rfl⟩
  unfold scanHashes scanHashesMap
  rw [List.foldl_append, List.foldl_append, List.foldl_cons, h]

/-- Witness for C6 at a concrete unreadable middle path. -/
theorem hash_c6_skip_unreadable_witness :
    (fun _ : String => (none : Option String)) "b" = none ∧
    (scanHashes (fun _ => none) (["a"] ++ "b" :: ["c"]) =
        scanHashes (fun _ => none) (["a"] ++ ["c"]) ∧
      (scanHashes (fun _ => none) (["a"] ++ "b" :: ["c"])).2 = none) :=
  ⟨rfl, hash_c6_skip_unreadable (fun _ => none) ["a"] ["c"] "b" rfl⟩

/-- C10: `scanHashes` always returns a `nil` error, so the two
`os.Exit(1)` branches guarding the `scanHashes` calls in `main` are
unreachable: every run of the matching loop ends in `Except.ok`. -/
theorem run_c10_exit_branches_unreachable :
    (∀ (hf : String → Option String) (ps : List String),
      (scanHashes hf ps).2 = none) ∧
    (∀ (hf : String → Option String) (dry : Bool) (ks cs : SizeMap),
      ∃ out, runMain hf dry ks cs = Except.ok out) := by
  refine ⟨fun hf ps => rfl, fun hf dry ks cs => ?_⟩
  exact ⟨runLoop hf dry ks cs, runMain_eq_runLoop hf dry ks cs⟩

/-- The hashing oracle of the concrete C8 scenario: `A.txt` and `B.txt`
share digest `H1`, `C.txt` has digest `H2`. -/
def c8hash : String → Option String := fun p =>
  if p = "A.txt" then some "H1"
  else if p = "B.txt" then some "H1"
  else if p = "C.txt" then some "H2"
  else none

/-- Keep-tree size map of the C8 scenario: `A.txt`, 10 bytes. -/
def c8keep : SizeMap := [(10, ["A.txt"])]

/-- Clean-tree size map of the C8 scenario: `B.txt` and `C.txt`, 10 bytes
each. -/
def c8clean : SizeMap := [(10, ["B.txt", "C.txt"])]

/-- C8: in the concrete scenario, the live run deletes exactly `B.txt` (as a
duplicate of `A.txt`), the dry run reports exactly that pair, `C.txt` is
never deleted, and the summary counts 1 duplicate file and 10 bytes. -/
theorem run_c8_concrete_scenario :
    runMain c8hash false c8keep c8clean =
      Except.ok ([Action.delete "A.txt" "B.txt"], 1, 10) ∧
    runMain c8hash true c8keep c8clean =
      Except.ok ([Action.report "A.txt" "B.txt"], 1, 10) ∧
    ∀ kp, Action.delete kp "C.txt" ∉ runActs c8hash false c8keep c8clean := by
  refine ⟨rfl, rfl, fun kp h => ?_⟩
  have he : runActs c8hash false c8keep c8clean =
      [Action.delete "A.txt" "B.txt"] := rfl
  rw [he] at h
  simp at h

/-! ### Claim theorems (size scanner wiring bugs C1, C2) -/

/-- A keep tree holding a single ordinary regular file `a.txt`. -/
def c1tree : FSNode := FSNode.dir "root" true [FSNode.file "a.txt" 0 5]

/-- C1 (bug evaluation): with the `-extensions` flag absent or empty, `main`
builds `strings.Split("", ",") = [""]`, so `scanSizes` demands a lowercased
path ending in `"."` and the regular file `a.txt` is *excluded* from the size
map — while calling `scanSizes` with a genuinely empty suffix list (the
behaviour the spec describes) includes it. -/
theorem scan_c1_empty_extensions_excludes_file :
    mainSuffixes "" = [""] ∧
    scanSizes "root" (mainSuffixes "") (some c1tree) = (some [], none) ∧
    scanSizes "root" [] (some c1tree) = (some [(5, ["root/a.txt"])], none) :=
  ⟨rfl, rfl, rfl⟩

/-- C2 (bug evaluation): a root on which `lstat` fails (the root does not
exist) makes the walk callback return `filepath.SkipDir`, which
`filepath.Walk` converts to a `nil` error, so `scanSizes` returns an empty
map with no error and `main` does not exit; a root that is a regular file is
simply scanned as that one file instead of aborting. -/
theorem scan_c2_missing_root_not_fatal :
    (∀ (root : String) (sfx : List String),
      scanSizes root sfx none = (some [], none)) ∧
    scanSizes "rootfile" [] (some (FSNode.file "rootfile" 0 7)) =
      (some [(7, ["rootfile"])], none) :=
  ⟨fun _ _ => rfl, rfl⟩

/-! ### C3: only matching clean-tree paths are ever deleted -/

theorem bucketLoop_deleteSound (hf : String → Option String) (dry : Bool)
    (ks cs : SizeMap) (sn : Nat × List String) (hsn : sn ∈ ks)
    (acc : List Action × Nat × Nat) (hacc : deleteSound hf dry ks cs acc.1) :
    deleteSound hf dry ks cs (bucketLoop hf dry cs acc sn).1 := by
  unfold bucketLoop
  rcases hlk : lookupSize cs sn.1 with _ | cleanerNames
  · exact hacc
  · have hcs : (sn.1, cleanerNames) ∈ cs := lookupSize_mem hlk
    refine foldl_invariant (P := fun acc2 => deleteSound hf dry ks cs acc2.1) _
      (scanHashesMap hf sn.2) acc hacc ?_
    intro acc2 kv hkv hacc2
    rcases hml : mapLookup (scanHashesMap hf cleanerNames) kv.1 with _ | cleanpath
    · exact hacc2
    · obtain ⟨hkhash, hkmem⟩ := scanHashesMap_mem hkv
      obtain ⟨hchash, hcmem⟩ := scanHashesMap_mem (mapLookup_mem hml)
      rcases dry with _ | _
      · simp only [Bool.false_eq_true, if_neg (fun h => h)]
        intro kp cp hdel
        rcases List.mem_append.1 hdel with hold | hnew
        · exact hacc2 kp cp hold
        · rw [List.mem_singleton] at hnew
          cases hnew
          refine ⟨rfl, sn.1, sn.2, cleanerNames, kv.1, ?_, hcs, hkmem, hcmem,
            hkhash, hchash⟩
          simpa using hsn
      · simp only [if_pos rfl]
        intro kp cp hdel
        rcases List.mem_append.1 hdel with hold | hnew
        · exact hacc2 kp cp hold
        · simp at hnew

theorem runLoop_deleteSound (hf : String → Option String) (dry : Bool)
    (ks cs : SizeMap) : deleteSound hf dry ks cs (runLoop hf dry ks cs).1 := by
  unfold runLoop
  refine foldl_invariant (P := fun acc => deleteSound hf dry ks cs acc.1) _
    ks ([], 0, 0) ?_ ?_
  · intro kp cp h
    simp at h
  · intro acc sn hsn hacc
    exact bucketLoop_deleteSound hf dry ks cs sn hsn acc hacc

/-- C3: the keep tree is never touched — the only mutation a run ever
performs is, in live mode only, the deletion of a clean-tree path whose size
bucket and content digest both match a keep-tree path.  In particular a path
that is not in the clean-tree size map (every keep-tree file, the two trees
being distinct) is never deleted. -/
theorem run_c3_keep_tree_untouched (hf : String → Option String) (dry : Bool)
    (ks cs : SizeMap) (acts : List Action) (fc bc : Nat)
    (h : runMain hf dry ks cs = Except.ok (acts, fc, bc)) :
    deleteSound hf dry ks cs acts ∧
    ∀ f1, sizeMapMember cs f1 = false → ∀ kp, Action.delete kp f1 ∉ acts := by
  have h2 : runLoop hf dry ks cs = (acts, fc, bc) := by
    rw [runMain_eq_runLoop] at h
    exact Except.ok.inj h
  have hacts : acts = (runLoop hf dry ks cs).1 := by rw [h2]
  subst hacts
  refine ⟨runLoop_deleteSound hf dry ks cs, ?_⟩
  intro f1 hf1 kp hdel
  obtain ⟨-, sz, kl, cl, d, -, hcl, -, hcm, -, -⟩ :=
    runLoop_deleteSound hf dry ks cs kp f1 hdel
  rw [sizeMapMember_of_mem hcl hcm] at hf1
  exact Bool.noConfusion hf1

/-- Hashing oracle for the C3 witness run. -/
def c3hash : String → Option String := fun p =>
  if p = "k.txt" then some "h1" else if p = "c.txt" then some "h1" else none

/-- Keep-side size map for the C3 witness run. -/
def c3keep : SizeMap := [(4, ["k.txt"])]

/-- Clean-side size map for the C3 witness run. -/
def c3clean : SizeMap := [(4, ["c.txt"])]

/-- Witness for C3 on a concrete live run that deletes one duplicate. -/
theorem run_c3_keep_tree_untouched_witness :
    deleteSound c3hash false c3keep c3clean [Action.delete "k.txt" "c.txt"] ∧
    ∀ f1, sizeMapMember c3clean f1 = false →
      ∀ kp, Action.delete kp f1 ∉ [Action.delete "k.txt" "c.txt"] :=
  run_c3_keep_tree_untouched c3hash false c3keep c3clean
    [Action.delete "k.txt" "c.txt"] 1 4 rfl

/-! ### C4: a dry run reports exactly what a live run would delete -/

theorem foldl_map_rel {α : Type}
    (f g : (List Action × Nat × Nat) → α → (List Action × Nat × Nat))
    (hrel : ∀ acc a, f (acc.1.map reportOf, acc.2) a =
      ((g acc a).1.map reportOf, (g acc a).2)) :
    ∀ (l : List α) (acc : List Action × Nat × Nat),
      l.foldl f (acc.1.map reportOf, acc.2) =
        ((l.foldl g acc).1.map reportOf, (l.foldl g acc).2) := by
  intro l
  induction l with
  | nil => intro acc; rfl
  | cons a rest ih =>
    intro acc
    rw [List.foldl_cons, List.foldl_cons, hrel acc a]
    exact ih (g acc a)

theorem bucketLoop_dry_map (hf : String → Option String) (cs : SizeMap)
    (sn : Nat × List String) (acc : List Action × Nat × Nat) :
    bucketLoop hf true cs (acc.1.map reportOf, acc.2) sn =
      ((bucketLoop hf false cs acc sn).1.map reportOf,
        (bucketLoop hf false cs acc sn).2) := by
  unfold bucketLoop
  rcases hlk : lookupSize cs sn.1 with _ | cleanerNames
  · rfl
  · refine foldl_map_rel _ _ ?_ (scanHashesMap hf sn.2) acc
    intro acc2 kv
    rcases hml : mapLookup (scanHashesMap hf cleanerNames) kv.1 with _ | cleanpath
    · rfl
    · simp [reportOf]

/-- Every action of a live run is a deletion. -/
def allDeletes (acts : List Action) : Prop :=
  ∀ a ∈ acts, ∃ k c, a = Action.delete k c

theorem bucketLoop_live_deletes (hf : String → Option String) (cs : SizeMap)
    (sn : Nat × List String) (acc : List Action × Nat × Nat)
    (hacc : allDeletes acc.1) : allDeletes (bucketLoop hf false cs acc sn).1 := by
  unfold bucketLoop
  rcases hlk : lookupSize cs sn.1 with _ | cleanerNames
  · exact hacc
  · refine foldl_invariant (P := fun acc2 => allDeletes acc2.1) _
      (scanHashesMap hf sn.2) acc hacc ?_
    intro acc2 kv _ hacc2
    rcases hml : mapLookup (scanHashesMap hf cleanerNames) kv.1 with _ | cleanpath
    · exact hacc2
    · simp only [if_neg Bool.false_ne_true]
      intro a ha
      rcases List.mem_append.1 ha with hold | hnew
      · exact hacc2 a hold
      · rw [List.mem_singleton] at hnew
        exact ⟨kv.2, cleanpath, hnew⟩

theorem runLoop_live_deletes (hf : String → Option String) (ks cs : SizeMap) :
    allDeletes (runLoop hf false ks cs).1 := by
  unfold runLoop
  refine foldl_invariant (P := fun acc => allDeletes acc.1) _ ks ([], 0, 0) ?_ ?_
  · intro a ha; simp at ha
  · intro acc sn _ hacc
    exact bucketLoop_live_deletes hf cs sn acc hacc

theorem runLoop_dry_map (hf : String → Option String) (ks cs : SizeMap) :
    runLoop hf true ks cs =
      ((runLoop hf false ks cs).1.map reportOf, (runLoop hf false ks cs).2) := by
  unfold runLoop
  have h0 : (([], 0, 0) : List Action × Nat × Nat) =
      ((([], 0, 0) : List Action × Nat × Nat).1.map reportOf, (0, 0)) := rfl
  rw [h0]
  exact foldl_map_rel _ _ (fun acc sn => bucketLoop_dry_map hf cs sn acc) ks ([], 0, 0)

theorem reportedPairs_map_reportOf (l : List Action) :
    reportedPairs (l.map reportOf) = l.map actionPair := by
  induction l with
  | nil => rfl
  | cons a rest ih =>
    cases a <;> simp [reportedPairs, reportOf, actionPair] at ih ⊢ <;> exact ih

theorem deletedPairs_map_reportOf (l : List Action) :
    deletedPairs (l.map reportOf) = [] := by
  induction l with
  | nil => rfl
  | cons a rest ih =>
    cases a <;> simpa [deletedPairs, reportOf] using ih

theorem deletedPairs_eq_map {l : List Action} (h : allDeletes l) :
    deletedPairs l = l.map actionPair := by
  induction l with
  | nil => rfl
  | cons a rest ih =>
    obtain ⟨k, c, hk⟩ := h a (List.mem_cons_self a rest)
    subst hk
    have hrest : allDeletes rest := fun x hx => h x (List.mem_cons_of_mem _ hx)
    have hstep : deletedPairs (Action.delete k c :: rest) =
        (k, c) :: deletedPairs rest := rfl
    rw [hstep, List.map_cons, ih hrest]
    rfl

/-- C4: on the same size maps and hashing oracle, a dry run reports exactly
the `(keep, clean)` pairs that a live run deletes, and the dry run itself
deletes nothing. -/
theorem run_c4_dry_equals_live : ∀ (hf : String → Option String)
    (ks cs : SizeMap),
    reportedPairs (runActs hf true ks cs) =
      deletedPairs (runActs hf false ks cs) ∧
    deletedPairs (runActs hf true ks cs) = [] := by
  intro hf ks cs
  have hacts : ∀ dry, runActs hf dry ks cs = (runLoop hf dry ks cs).1 := by
    intro dry
    unfold runActs
    rw [runMain_eq_runLoop]
  have h1 : (runLoop hf true ks cs).1 = (runLoop hf false ks cs).1.map reportOf := by
    rw [runLoop_dry_map]
  constructor
  · rw [hacts, hacts, h1, reportedPairs_map_reportOf,
      deletedPairs_eq_map (runLoop_live_deletes hf ks cs)]
  · rw [hacts, h1, deletedPairs_map_reportOf]

/-! ### Structure of the walk: helper lemmas -/

mutual
/-- All `lstat`-able non-directory entries of a node, as `(mode, size)`
pairs, whatever the extension filter says. -/
def filesOf : FSNode → List (Nat × Nat)
  | FSNode.file _ mode size => [(mode, size)]
  | FSNode.dir _ _ es => filesOfList es
  | FSNode.broken _ => []

/-- `filesOf` over a list of sibling entries. -/
def filesOfList : List FSNode → List (Nat × Nat)
  | [] => []
  | e :: rest => filesOf e ++ filesOfList rest
end

theorem goModeDir_land : goModeDir &&& goModeType ≠ 0 := by decide

/-- Visiting a directory entry itself records nothing: its `ModeDir` bit is
in `ModeType`. -/
theorem sizesWalkFn_dir (sfx : List String) (names : SizeMap) (path : String) :
    sizesWalkFn sfx names path (some { mode := goModeDir, size := 0 }) false =
      (names, none) := by
  unfold sizesWalkFn
  rw [if_neg Bool.false_ne_true]
  simp only []
  rw [if_pos goModeDir_land]

theorem walkFS_dir_true (sfx : List String) (names : SizeMap) (path : String)
    (nm : String) (es : List FSNode) :
    walkFS sfx names path (FSNode.dir nm true es) =
      walkChildren sfx names path es := by
  rw [walkFS]
  rw [if_pos rfl, sizesWalkFn_dir]

theorem walkFS_dir_false (sfx : List String) (names : SizeMap) (path : String)
    (nm : String) (es : List FSNode) :
    walkFS sfx names path (FSNode.dir nm false es) =
      (names, some WalkErr.skipDir) := by
  rw [walkFS]
  rw [if_neg Bool.false_ne_true]
  rfl

theorem lookupSize_insert (m : SizeMap) (sz : Nat) (q : String) (s : Nat) :
    lookupSize (insertSize m sz q) s =
      if sz = s then some (sizeMapPaths m sz ++ [q]) else lookupSize m s := by
  induction m with
  | nil =>
    by_cases h : sz = s <;> simp [insertSize, lookupSize, sizeMapPaths, h]
  | cons hd rest ih =>
    obtain ⟨s0, l⟩ := hd
    by_cases h0 : s0 = sz
    · subst h0
      by_cases h1 : s0 = s
      · subst h1
        simp [insertSize, lookupSize, sizeMapPaths]
      · have h2 : ¬s0 = s := h1
        simp [insertSize, lookupSize, sizeMapPaths, h2]
    · by_cases h1 : s0 = s
      · subst h1
        have h2 : ¬sz = s0 := fun h => h0 h.symm
        simp [insertSize, lookupSize, sizeMapPaths, h0, h2]
      · simp only [insertSize, if_neg h0, lookupSize, if_neg h1, ih]
        have h3 : sizeMapPaths ((s0, l) :: rest) sz = sizeMapPaths rest sz := by
          simp [sizeMapPaths, lookupSize, h0]
        rw [h3]

theorem mem_insertSize {m : SizeMap} {sz : Nat} {q : String} {s : Nat}
    {p : String} (h : p ∈ sizeMapPaths (insertSize m sz q) s) :
    p ∈ sizeMapPaths m s ∨ (p = q ∧ s = sz) := by
  unfold sizeMapPaths at h
  rw [lookupSize_insert] at h
  by_cases hs : sz = s
  · rw [if_pos hs] at h
    subst hs
    have h0 : p ∈ sizeMapPaths m sz ∨ p = q := by simpa using h
    rcases h0 with h1 | h1
    · exact Or.inl h1
    · exact Or.inr ⟨h1, rfl⟩
  · rw [if_neg hs] at h
    exact Or.inl h

/-- What the callback can do to the size map on an error-free visit: leave
it unchanged, or record the visited path under its size — the latter only
when the mode has no type bit set. -/
theorem sizesWalkFn_fst_mem {sfx : List String} {names : SizeMap}
    {path : String} {i : GoFileInfo} {s : Nat} {p : String}
    (h : p ∈ sizeMapPaths (sizesWalkFn sfx names path (some i) false).1 s) :
    p ∈ sizeMapPaths names s ∨
      (p = path ∧ s = i.size ∧ i.mode &&& goModeType = 0) := by
  unfold sizesWalkFn at h
  rw [if_neg Bool.false_ne_true] at h
  simp only [] at h
  by_cases h1 : i.mode &&& goModeType ≠ 0
  · rw [if_pos h1] at h
    exact Or.inl h
  · rw [if_neg h1] at h
    have h2 : i.mode &&& goModeType = 0 := not_ne_iff.1 h1
    by_cases h3 : 0 < sfx.length ∧
        (sfx.any fun ext => goHasSuffix (goToLower path) ("." ++ ext)) = false
    · rw [if_pos h3] at h
      exact Or.inl h
    · rw [if_neg h3] at h
      rcases mem_insertSize h with h4 | h4
      · exact Or.inl h4
      · exact Or.inr ⟨h4.1, h4.2, h2⟩

mutual
/-- Any path the walk adds below a node comes from a regular file of that
node: its mode has no `ModeType` bit set and its size is the bucket key. -/
theorem walkFS_sound : ∀ (n : FSNode) (sfx : List String) (names : SizeMap)
    (path : String) (s : Nat) (p : String),
    p ∈ sizeMapPaths (walkFS sfx names path n).1 s →
    p ∈ sizeMapPaths names s ∨
      ∃ mode, (mode, s) ∈ filesOf n ∧ mode &&& goModeType = 0
  | FSNode.file nm mode size, sfx, names, path, s, p => fun h => by
    rw [walkFS] at h
    rcases sizesWalkFn_fst_mem h with h1 | h1
    · exact Or.inl h1
    · refine Or.inr ⟨mode, ?_, h1.2.2⟩
      rw [h1.2.1]
      exact List.mem_singleton.2 rfl
  | FSNode.dir nm true es, sfx, names, path, s, p => fun h => by
    rw [walkFS_dir_true] at h
    rcases walkChildren_sound es sfx names path s p h with h1 | h1
    · exact Or.inl h1
    · exact Or.inr h1
  | FSNode.dir nm false es, sfx, names, path, s, p => fun h => by
    rw [walkFS_dir_false] at h
    exact Or.inl h
  | FSNode.broken nm, sfx, names, path, s, p => fun h => by
    rw [walkFS] at h
    exact Or.inl h

/-- As `walkFS_sound`, for the child loop of a directory. -/
theorem walkChildren_sound : ∀ (es : List FSNode) (sfx : List String)
    (names : SizeMap) (dirPath : String) (s : Nat) (p : String),
    p ∈ sizeMapPaths (walkChildren sfx names dirPath es).1 s →
    p ∈ sizeMapPaths names s ∨
      ∃ mode, (mode, s) ∈ filesOfList es ∧ mode &&& goModeType = 0
  | [], sfx, names, dirPath, s, p => fun h => Or.inl h
  | FSNode.broken nm :: rest, sfx, names, dirPath, s, p => fun h => by
    rcases walkChildren_sound rest sfx names dirPath s p h with h1 | h1
    · exact Or.inl h1
    · obtain ⟨mode, hm, h0⟩ := h1
      exact Or.inr ⟨mode, List.mem_append.2 (Or.inr hm), h0⟩
  | FSNode.file nm mode size :: rest, sfx, names, dirPath, s, p => fun h => by
    rw [walkChildren] at h
    rcases hw : walkFS sfx names (dirPath ++ "/" ++ nm) (FSNode.file nm mode size)
      with ⟨names1, r⟩
    rw [hw] at h
    have hup : p ∈ sizeMapPaths names1 s →
        p ∈ sizeMapPaths names s ∨
          ∃ md, (md, s) ∈ filesOfList (FSNode.file nm mode size :: rest) ∧
            md &&& goModeType = 0 := by
      intro h1
      have h2 := walkFS_sound (FSNode.file nm mode size) sfx names
        (dirPath ++ "/" ++ nm) s p (by rw [hw]; exact h1)
      rcases h2 with h3 | h3
      · exact Or.inl h3
      · obtain ⟨md, hm, h0⟩ := h3
        exact Or.inr ⟨md, List.mem_append.2 (Or.inl hm), h0⟩
    rcases r with _ | e1
    · rcases walkChildren_sound rest sfx names1 dirPath s p h with h1 | h1
      · exact hup h1
      · obtain ⟨md, hm, h0⟩ := h1
        exact Or.inr ⟨md, List.mem_append.2 (Or.inr hm), h0⟩
    · exact hup h
  | FSNode.dir nm rd es :: rest, sfx, names, dirPath, s, p => fun h => by
    rw [walkChildren] at h
    rcases hw : walkFS sfx names (dirPath ++ "/" ++ nm) (FSNode.dir nm rd es)
      with ⟨names1, r⟩
    rw [hw] at h
    have hup : p ∈ sizeMapPaths names1 s →
        p ∈ sizeMapPaths names s ∨
          ∃ md, (md, s) ∈ filesOfList (FSNode.dir nm rd es :: rest) ∧
            md &&& goModeType = 0 := by
      intro h1
      have h2 := walkFS_sound (FSNode.dir nm rd es) sfx names
        (dirPath ++ "/" ++ nm) s p (by rw [hw]; exact h1)
      rcases h2 with h3 | h3
      · exact Or.inl h3
      · obtain ⟨md, hm, h0⟩ := h3
        exact Or.inr ⟨md, List.mem_append.2 (Or.inl hm), h0⟩
    have hrest : p ∈ sizeMapPaths (walkChildren sfx names1 dirPath rest).1 s →
        p ∈ sizeMapPaths names s ∨
          ∃ md, (md, s) ∈ filesOfList (FSNode.dir nm rd es :: rest) ∧
            md &&& goModeType = 0 := by
      intro h1
      rcases walkChildren_sound rest sfx names1 dirPath s p h1 with h2 | h2
      · exact hup h2
      · obtain ⟨md, hm, h0⟩ := h2
        exact Or.inr ⟨md, List.mem_append.2 (Or.inr hm), h0⟩
    rcases r with _ | e1
    · exact hrest h
    · exact hrest h
end

/-- `filepath.Walk` converts the only error the callback ever produces
(`SkipDir`) to `nil`, so the walk always ends with a `nil` error. -/
theorem goWalk_eq (sfx : List String) (root : String) (fs : Option FSNode) :
    goWalk sfx root fs = ((goWalkRaw sfx root fs).1, none) := by
  rcases h : goWalkRaw sfx root fs with ⟨names, r⟩
  rcases r with _ | e
  · rw [goWalk, h]
  · rcases e
    rw [goWalk, h]

/-- `scanSizes` therefore always returns its collected map and a `nil`
error, whatever the tree looks like. -/
theorem scanSizes_eq (root : String) (sfx : List String) (fs : Option FSNode) :
    scanSizes root sfx fs = (some (goWalkRaw sfx root fs).1, none) := by
  rw [scanSizes, goWalk_eq]

theorem land_lor_eq_zero {m a b : Nat} (h : m &&& (a ||| b) = 0) :
    m &&& a = 0 ∧ m &&& b = 0 := by
  refine ⟨?_, ?_⟩
  · apply Nat.eq_of_testBit_eq
    intro i
    have hb : Nat.testBit (m &&& (a ||| b)) i = false := by
      rw [h]; exact Nat.zero_testBit i
    rw [Nat.testBit_land, Nat.testBit_lor] at hb
    rw [Nat.testBit_land, Nat.zero_testBit]
    cases hm : m.testBit i <;> cases ha : a.testBit i <;> simp_all
  · apply Nat.eq_of_testBit_eq
    intro i
    have hb : Nat.testBit (m &&& (a ||| b)) i = false := by
      rw [h]; exact Nat.zero_testBit i
    rw [Nat.testBit_land, Nat.testBit_lor] at hb
    rw [Nat.testBit_land, Nat.zero_testBit]
    cases hm : m.testBit i <;> cases ha : b.testBit i <;> simp_all

/-- A mode with no `ModeType` bit has none of the individual type bits. -/
theorem mode_bits_split {m : Nat} (h : m &&& goModeType = 0) :
    m &&& goModeDir = 0 ∧ m &&& goModeSymlink = 0 ∧ m &&& goModeNamedPipe = 0 ∧
    m &&& goModeSocket = 0 ∧ m &&& goModeDevice = 0 ∧
    m &&& goModeCharDevice = 0 ∧ m &&& goModeIrregular = 0 := by
  rw [goModeType] at h
  obtain ⟨h1, hIrr⟩ := land_lor_eq_zero h
  obtain ⟨h2, hCD⟩ := land_lor_eq_zero h1
  obtain ⟨h3, hDev⟩ := land_lor_eq_zero h2
  obtain ⟨h4, hSock⟩ := land_lor_eq_zero h3
  obtain ⟨h5, hNP⟩ := land_lor_eq_zero h4
  obtain ⟨hDir, hSym⟩ := land_lor_eq_zero h5
  exact ⟨hDir, hSym, hNP, hSock, hDev, hCD, hIrr⟩

/-- C9: only regular files ever enter a size bucket — every path recorded by
`scanSizes` under size `s` comes from a file of the tree whose mode has no
`ModeType` bit: it is not a directory, symlink, socket, named pipe, device,
or character device.  Since hashing and deletion only ever see paths taken
from size buckets, no non-regular file can be hashed or deleted. -/
theorem scan_c9_only_regular (t : FSNode) (root : String) (sfx : List String)
    (s : Nat) (p : String) (m : SizeMap) (e : Option WalkErr)
    (h : scanSizes root sfx (some t) = (some m, e))
    (hp : p ∈ sizeMapPaths m s) :
    ∃ mode, (mode, s) ∈ filesOf t ∧ mode &&& goModeType = 0 ∧
      mode &&& goModeDir = 0 ∧ mode &&& goModeSymlink = 0 ∧
      mode &&& goModeSocket = 0 ∧ mode &&& goModeNamedPipe = 0 ∧
      mode &&& goModeDevice = 0 ∧ mode &&& goModeCharDevice = 0 := by
  rw [scanSizes_eq] at h
  have h1 : some (goWalkRaw sfx root (some t)).1 = some m := congrArg Prod.fst h
  have h2 : (goWalkRaw sfx root (some t)).1 = m := Option.some.inj h1
  rw [← h2] at hp
  have finish : p ∈ sizeMapPaths (walkFS sfx [] root t).1 s →
      ∃ mode, (mode, s) ∈ filesOf t ∧ mode &&& goModeType = 0 ∧
        mode &&& goModeDir = 0 ∧ mode &&& goModeSymlink = 0 ∧
        mode &&& goModeSocket = 0 ∧ mode &&& goModeNamedPipe = 0 ∧
        mode &&& goModeDevice = 0 ∧ mode &&& goModeCharDevice = 0 := by
    intro hw
    rcases walkFS_sound t sfx [] root s p hw with h3 | h3
    · exact absurd h3 (List.not_mem_nil p)
    · obtain ⟨mode, hmem, h0⟩ := h3
      obtain ⟨hDir, hSym, hNP, hSock, hDev, hCD, -⟩ := mode_bits_split h0
      exact ⟨mode, hmem, h0, hDir, hSym, hSock, hNP, hDev, hCD⟩
  cases t with
  | file nm mode size => exact finish hp
  | dir nm rd es => exact finish hp
  | broken nm => exact absurd hp (List.not_mem_nil p)

/-- A tree with a single regular 3-byte file for the C9 witness. -/
def c9tree : FSNode := FSNode.dir "r" true [FSNode.file "f.bin" 0 3]

/-- Witness for C9 on the concrete one-file tree. -/
theorem scan_c9_only_regular_witness :
    scanSizes "r" [] (some c9tree) = (some [(3, ["r/f.bin"])], none) ∧
    "r/f.bin" ∈ sizeMapPaths [(3, ["r/f.bin"])] 3 ∧
    (∃ mode, (mode, 3) ∈ filesOf c9tree ∧ mode &&& goModeType = 0 ∧
      mode &&& goModeDir = 0 ∧ mode &&& goModeSymlink = 0 ∧
      mode &&& goModeSocket = 0 ∧ mode &&& goModeNamedPipe = 0 ∧
      mode &&& goModeDevice = 0 ∧ mode &&& goModeCharDevice = 0) :=
  ⟨rfl, by decide,
    scan_c9_only_regular c9tree "r" [] 3 "r/f.bin" [(3, ["r/f.bin"])] none rfl
      (by decide)⟩

/-! ### C7: an unreadable subtree is skipped, the rest of the scan goes on -/

theorem walkChildren_skip_unreadable (sfx : List String) (dn : String)
    (ds : List FSNode) (dirPath : String) (es2 : List FSNode) :
    ∀ (es1 : List FSNode) (names : SizeMap),
    walkChildren sfx names dirPath (es1 ++ FSNode.dir dn false ds :: es2) =
      walkChildren sfx names dirPath (es1 ++ es2) := by
  intro es1
  induction es1 with
  | nil =>
    intro names
    rw [List.nil_append, List.nil_append, walkChildren, walkFS_dir_false]
  | cons e rest ih =>
    intro names
    cases e with
    | file nm mode size =>
      simp only [List.cons_append, walkChildren]
      rcases hw : walkFS sfx names (dirPath ++ "/" ++ nm)
        (FSNode.file nm mode size) with ⟨names1, r⟩
      rcases r with _ | e1
      · exact ih names1
      · rfl
    | dir nm rd es =>
      simp only [List.cons_append, walkChildren]
      rcases hw : walkFS sfx names (dirPath ++ "/" ++ nm)
        (FSNode.dir nm rd es) with ⟨names1, r⟩
      rcases r with _ | e1 <;> exact ih names1
    | broken nm =>
      simp only [List.cons_append]
      exact ih names

/-- C7: a traversal error below a readable root — here an unreadable
directory among the root's children — makes the scan skip exactly that
subtree and continue: the resulting size map is the one of the same tree
with the unreadable directory removed, and the scan still ends without an
error instead of aborting. -/
theorem scan_c7_skip_subtree : ∀ (root rn : String) (sfx : List String)
    (es1 : List FSNode) (dn : String) (ds : List FSNode) (es2 : List FSNode),
    scanSizes root sfx
        (some (FSNode.dir rn true (es1 ++ FSNode.dir dn false ds :: es2))) =
      scanSizes root sfx (some (FSNode.dir rn true (es1 ++ es2))) ∧
    (scanSizes root sfx
        (some (FSNode.dir rn true (es1 ++ FSNode.dir dn false ds :: es2)))).2 =
      none := by
  intro root rn sfx es1 dn ds es2
  refine ⟨?_, by rw [scanSizes_eq]⟩
  rw [scanSizes_eq, scanSizes_eq]
  have h2 : ∀ L, goWalkRaw sfx root (some (FSNode.dir rn true L)) =
      walkFS sfx [] root (FSNode.dir rn true L) := fun L => rfl
  rw [h2, h2, walkFS_dir_true, walkFS_dir_true, walkChildren_skip_unreadable]

end DeletedDups
